import Mathlib

/-!
Verification of the sstable filter-block subsystem (`sstable/filter.go`):
the per-block filter writer/reader pair and the whole-table filter writer.

Byte buffers are modelled as `List Nat` (each element one byte), machine
integers as `Nat` with explicit `% 2 ^ 32` / range checks where the Go code
converts or checks, and fallible operations return `Except String`.

The external `db.FilterPolicy` capability (the concrete filter algorithm,
e.g. a Bloom filter) is not part of this repository's source; per the spec
it is an abstract stateful key accumulator plus a stateless query function.
It is modelled as a structure of functions: `finishSegment` gives the bytes
the policy's `FilterWriter.Finish` appends for the keys accumulated since
the last finish, and `mayContain` is the stateless membership test.
-/

/-- Keys are opaque byte strings. -/
abbrev Key := List Nat

/-- The `db.BlockFilter` / `db.TableFilter` kind tag passed into every
policy call. -/
inductive FilterKind where
  | blockFilter
  | tableFilter
deriving DecidableEq, Repr

/-- The abstract external `db.FilterPolicy` capability (spec section 6).
`finishSegment kind keys` is the byte segment `FilterWriter.Finish` appends
for the accumulated `keys`; `mayContain` is the stateless query. -/
structure FilterPolicy where
  finishSegment : FilterKind → List Key → List Nat
  mayContain : FilterKind → List Nat → Key → Bool
  name : String

/-- Go `binary.LittleEndian.PutUint32`: the four little-endian bytes of the
low 32 bits of `x`. -/
def putUint32LE (x : Nat) : List Nat :=
  [x % 256, x / 2 ^ 8 % 256, x / 2 ^ 16 % 256, x / 2 ^ 24 % 256]

/-- Go `binary.LittleEndian.Uint32(l[k:])`: decode four bytes at position
`k` (missing positions read as 0; every use site is proved in bounds). -/
def readUint32LE (l : List Nat) (k : Nat) : Nat :=
  l.getD k 0 + 2 ^ 8 * l.getD (k + 1) 0 + 2 ^ 16 * l.getD (k + 2) 0 +
    2 ^ 24 * l.getD (k + 3) 0

/-- `filterBaseLog` (filter.go line 68): a new filter segment for every
2 KiB window of table data. -/
def filterBaseLog : Nat := 11

/-- The state of `blockFilterReader` (filter.go lines 22-26). -/
structure BlockFilterReader where
  policy : FilterPolicy
  lastOffset : Nat
  shift : Nat

/-- `newBlockFilterReader` (filter.go lines 28-45): validate the blob
structure, returning `none` (Go `nil`) for an unusable blob. -/
def newBlockFilterReader (data : List Nat) (policy : FilterPolicy) :
    Option BlockFilterReader :=
  if data.length < 5 then none
  else
    let lastOffset := readUint32LE data (data.length - 5)
    if data.length - 5 < lastOffset then none
    else
      let offsets := (data.take (data.length - 1)).drop lastOffset
      if offsets.length % 4 ≠ 0 then none
      else some { policy := policy, lastOffset := lastOffset,
                  shift := data.getD (data.length - 1) 0 }

/-- `blockFilterReader.mayContain` (filter.go lines 47-60).  In Go the
bound is `uint64(len(offsets)/4 - 1)` where `len(offsets)/4` has type
`int`; when it is zero the value `-1` converts to `2 ^ 64 - 1`
(a successfully constructed reader always has at least one table entry,
so that case is unreachable there). -/
def BlockFilterReader.mayContain (f : BlockFilterReader) (data : List Nat)
    (blockOffset : Nat) (key : Key) : Bool :=
  let segs := data.take f.lastOffset
  let offsets := (data.take (data.length - 1)).drop f.lastOffset
  let index := blockOffset >>> f.shift
  let bound : Nat :=
    if offsets.length / 4 = 0 then 2 ^ 64 - 1 else offsets.length / 4 - 1
  if bound ≤ index then true
  else
    let i := readUint32LE offsets (4 * index)
    let j := readUint32LE offsets (4 * index + 4)
    if j ≤ i ∨ segs.length < j then true
    else f.policy.mayContain .blockFilter ((segs.take j).drop i) key

/-- The state of `blockFilterWriter` (filter.go lines 70-78).  `keys` is
the key list accumulated in the policy's `FilterWriter` since its last
`Finish`; `count` mirrors the Go `count` field. -/
structure BlockFilterWriter where
  keys : List Key
  count : Nat
  data : List Nat
  offsets : List Nat
deriving DecidableEq, Repr

/-- `newBlockFilterWriter` (filter.go lines 80-85). -/
def newBlockFilterWriter : BlockFilterWriter :=
  { keys := [], count := 0, data := [], offsets := [] }

/-- `blockFilterWriter.hasKeys` (filter.go lines 87-89). -/
def BlockFilterWriter.hasKeys (f : BlockFilterWriter) : Bool :=
  f.count ≠ 0

/-- `blockFilterWriter.addKey` (filter.go lines 91-94). -/
def BlockFilterWriter.addKey (f : BlockFilterWriter) (key : Key) :
    BlockFilterWriter :=
  { f with count := f.count + 1, keys := f.keys ++ [key] }

/-- The error returned when filter data outgrows 4-byte offsets. -/
def errFilterTooLong : String := "pebble/table: filter data is too long"

/-- `blockFilterWriter.appendOffset` (filter.go lines 96-103): record the
current segment-data length as a boundary, failing when it exceeds the
4-byte offset encoding range. -/
def BlockFilterWriter.appendOffset (f : BlockFilterWriter) :
    Except String BlockFilterWriter :=
  if 2 ^ 32 - 1 < f.data.length then .error errFilterTooLong
  else .ok { f with offsets := f.offsets ++ [f.data.length] }

/-- `blockFilterWriter.emit` (filter.go lines 105-115): record a boundary,
then flush the accumulated keys into a new segment (skipped when no key is
pending, leaving an empty segment). -/
def BlockFilterWriter.emit (P : FilterPolicy) (f : BlockFilterWriter) :
    Except String BlockFilterWriter :=
  f.appendOffset.bind fun f1 =>
    if f1.count = 0 then .ok f1
    else .ok { f1 with
               data := f1.data ++ P.finishSegment .blockFilter f1.keys,
               keys := [], count := 0 }

/-- The loop of `blockFilterWriter.finishBlock`: emit while
`i > len(f.offsets)`.  Each successful `emit` appends exactly one offset,
so `i + 1` units of fuel always outlast the loop; the fuel-exhausted
branch is unreachable from `finishBlock`. -/
def BlockFilterWriter.finishBlockLoop (P : FilterPolicy) :
    Nat → Nat → BlockFilterWriter → Except String BlockFilterWriter
  | 0, _, f => .ok f
  | fuel + 1, i, f =>
    if f.offsets.length < i then
      (BlockFilterWriter.emit P f).bind
        (BlockFilterWriter.finishBlockLoop P fuel i)
    else .ok f

/-- `blockFilterWriter.finishBlock` (filter.go lines 117-124). -/
def BlockFilterWriter.finishBlock (f : BlockFilterWriter) (P : FilterPolicy)
    (blockOffset : Nat) : Except String BlockFilterWriter :=
  BlockFilterWriter.finishBlockLoop P (blockOffset >>> filterBaseLog + 1)
    (blockOffset >>> filterBaseLog) f

/-- `blockFilterWriter.finish` (filter.go lines 126-143): flush pending
keys, record the sentinel boundary, then append the encoded offset table
and the shift byte. -/
def BlockFilterWriter.finish (P : FilterPolicy) (f : BlockFilterWriter) :
    Except String (List Nat) :=
  (if f.count ≠ 0 then BlockFilterWriter.emit P f else .ok f).bind fun f1 =>
    f1.appendOffset.bind fun f2 =>
      .ok (f2.data ++ (f2.offsets.map putUint32LE).flatten ++ [filterBaseLog])

/-- The state of `tableFilterWriter` (filter.go lines 167-172). -/
structure TableFilterWriter where
  keys : List Key
  count : Nat

/-- `newTableFilterWriter` (filter.go lines 174-179). -/
def newTableFilterWriter : TableFilterWriter :=
  { keys := [], count := 0 }

/-- `tableFilterWriter.addKey` (filter.go lines 181-184). -/
def TableFilterWriter.addKey (f : TableFilterWriter) (key : Key) :
    TableFilterWriter :=
  { f with count := f.count + 1, keys := f.keys ++ [key] }

/-- `tableFilterWriter.finish` (filter.go lines 191-196): Go returns
`nil, nil` when no key was ever added, modelled as `none`. -/
def TableFilterWriter.finish (P : FilterPolicy) (f : TableFilterWriter) :
    Option (List Nat) :=
  if f.count = 0 then none
  else some (P.finishSegment .tableFilter f.keys)

/-- How the table writer drives a per-block filter writer on a stream of
`(key, blockOffset)` pairs: when the block offset advances, cut segment
boundaries with `finishBlock` before adding the key of the new block. -/
def runPairs (P : FilterPolicy) :
    Nat → BlockFilterWriter → List (Key × Nat) →
    Except String BlockFilterWriter
  | _, f, [] => .ok f
  | prev, f, (k, off) :: rest =>
    if prev < off then
      (f.finishBlock P off).bind fun f1 => runPairs P off (f1.addKey k) rest
    else runPairs P prev (f.addKey k) rest

/-- An arbitrary interleaving of `addKey` and `finishBlock` calls. -/
inductive FilterOp where
  | add (key : Key)
  | block (blockOffset : Nat)

/-- Run a sequence of `addKey` / `finishBlock` calls against a writer. -/
def runOps (P : FilterPolicy) (f : BlockFilterWriter) :
    List FilterOp → Except String BlockFilterWriter
  | [] => .ok f
  | .add k :: rest => runOps P (f.addKey k) rest
  | .block off :: rest =>
    (f.finishBlock P off).bind fun f1 => runOps P f1 rest

/-- Add a list of keys one by one. -/
def BlockFilterWriter.addKeys (f : BlockFilterWriter) (ks : List Key) :
    BlockFilterWriter :=
  ks.foldl BlockFilterWriter.addKey f

/-- Ghost abstraction: the byte chunk one emitted segment contributes.  A
segment with no accumulated keys contributes no bytes (the Go `emit` skips
`writer.Finish` when `count == 0`). -/
def chunkOf (P : FilterPolicy) (ks : List Key) : List Nat :=
  if ks.isEmpty then [] else P.finishSegment .blockFilter ks

/-- Ghost abstraction: total segment data for a list of per-segment key
lists. -/
def buildData (P : FilterPolicy) (segs : List (List Key)) : List Nat :=
  (segs.map (chunkOf P)).flatten

/-- Ghost abstraction: the offset table (without sentinel) for a list of
per-segment key lists: entry `t` is the data length before segment `t`. -/
def buildOffsets (P : FilterPolicy) (segs : List (List Key)) : List Nat :=
  (List.range segs.length).map fun t => (buildData P (segs.take t)).length

/-- The writer state determined by the ghost segment list: reachable
writer states always have this shape. -/
def GoodWriter (P : FilterPolicy) (segs : List (List Key))
    (f : BlockFilterWriter) : Prop :=
  f.data = buildData P segs ∧ f.offsets = buildOffsets P segs ∧
    f.count = f.keys.length

/-- Key `p.1`, queried at block offset `p.2`, is answerable from the
emitted segments or from the still-pending key list. -/
def Covers (segs : List (List Key)) (pending : List Key)
    (p : Key × Nat) : Prop :=
  p.2 >>> filterBaseLog < segs.length ∧
      p.1 ∈ segs.getD (p.2 >>> filterBaseLog) [] ∨
    p.2 >>> filterBaseLog = segs.length ∧ p.1 ∈ pending

/-- The per-block reader query, written from the spec's words (section
4.2): `N` real segments for `N + 1` table entries, fail open past the last
real segment, fail open on `low ≥ high` or `high` beyond the segment data,
otherwise delegate to the policy over `segments[low:high]`.  Stated
separately from `BlockFilterReader.mayContain` (which is translated from
the code) so the two can be compared. -/
def mayContainPerSpec (f : BlockFilterReader) (data : List Nat)
    (blockOffset : Nat) (key : Key) : Bool :=
  let segments := data.take f.lastOffset
  let table := (data.take (data.length - 1)).drop f.lastOffset
  let numSegments := table.length / 4 - 1
  let index := blockOffset >>> f.shift
  if numSegments ≤ index then true
  else
    let low := readUint32LE table (4 * index)
    let high := readUint32LE table (4 * index + 4)
    if high ≤ low ∨ segments.length < high then true
    else f.policy.mayContain .blockFilter ((segments.take high).drop low) key

/-- A concrete policy for evaluating the development on closed inputs: one
byte per accumulated key, a query that always answers `true`. -/
def trivialPolicy : FilterPolicy where
  finishSegment := fun _ ks => List.replicate ks.length 1
  mayContain := fun _ _ _ => true
  name := "trivial"


theorem putUint32LE_length (x : Nat) : (putUint32LE x).length = 4 := rfl

theorem readUint32LE_encode (x : Nat) :
    readUint32LE (putUint32LE x) 0 = x % 2 ^ 32 := by
  simp [readUint32LE, putUint32LE, List.getD]
  omega

theorem readUint32LE_append_left (a b : List Nat) (k : Nat)
    (h : k + 4 ≤ a.length) :
    readUint32LE (a ++ b) k = readUint32LE a k := by
  unfold readUint32LE
  rw [List.getD_append a b 0 k (by omega),
    List.getD_append a b 0 (k + 1) (by omega),
    List.getD_append a b 0 (k + 2) (by omega),
    List.getD_append a b 0 (k + 3) (by omega)]

theorem readUint32LE_append_right (a b : List Nat) (k : Nat) :
    readUint32LE (a ++ b) (a.length + k) = readUint32LE b k := by
  unfold readUint32LE
  rw [List.getD_append_right a b 0 (a.length + k) (by omega),
    List.getD_append_right a b 0 (a.length + k + 1) (by omega),
    List.getD_append_right a b 0 (a.length + k + 2) (by omega),
    List.getD_append_right a b 0 (a.length + k + 3) (by omega)]
  have h0 : a.length + k - a.length = k := by omega
  have h1 : a.length + k + 1 - a.length = k + 1 := by omega
  have h2 : a.length + k + 2 - a.length = k + 2 := by omega
  have h3 : a.length + k + 3 - a.length = k + 3 := by omega
  rw [h0, h1, h2, h3]

theorem encTable_length (offs : List Nat) :
    ((offs.map putUint32LE).flatten).length = 4 * offs.length := by
  induction offs with
  | nil => simp
  | cons o rest ih =>
    simp only [List.map_cons, List.flatten_cons, List.length_append,
      putUint32LE_length, ih, List.length_cons]
    omega

theorem readUint32LE_encTable (offs : List Nat) :
    ∀ t, t < offs.length →
      readUint32LE ((offs.map putUint32LE).flatten) (4 * t) =
        offs.getD t 0 % 2 ^ 32 := by
  induction offs with
  | nil => intro t ht; simp at ht
  | cons o rest ih =>
    intro t ht
    cases t with
    | zero =>
      have h := readUint32LE_append_left (putUint32LE o)
        ((rest.map putUint32LE).flatten) 0 (by simp [putUint32LE_length])
      simpa [readUint32LE_encode] using h
    | succ t' =>
      have e : 4 * (t' + 1) = (putUint32LE o).length + 4 * t' := by
        rw [putUint32LE_length]; omega
      rw [List.map_cons, List.flatten_cons, e, readUint32LE_append_right]
      simpa using ih t' (by simpa using ht)

theorem blob_take_data (D T : List Nat) (s : Nat) :
    (D ++ T ++ [s]).take D.length = D := by
  rw [List.append_assoc, List.take_append_of_le_length (le_refl D.length),
    List.take_length]

theorem blob_table (D T : List Nat) (s : Nat) :
    ((D ++ T ++ [s]).take ((D ++ T ++ [s]).length - 1)).drop D.length = T := by
  have hl : (D ++ T ++ [s]).length - 1 = (D ++ T).length := by simp
  rw [hl, List.take_left, List.drop_left]

theorem blob_shift_byte (D T : List Nat) (s : Nat) :
    (D ++ T ++ [s]).getD ((D ++ T ++ [s]).length - 1) 0 = s := by
  have hl : (D ++ T ++ [s]).length - 1 = (D ++ T).length := by simp
  rw [hl, List.getD_append_right (D ++ T) [s] 0 (D ++ T).length (le_refl _)]
  simp

theorem blob_read (D T B : List Nat) (k : Nat) (hk : k + 4 ≤ T.length) :
    readUint32LE (D ++ T ++ B) (D.length + k) = readUint32LE T k := by
  rw [List.append_assoc, readUint32LE_append_right D (T ++ B) k]
  exact readUint32LE_append_left T B k hk

theorem buildData_append (P : FilterPolicy) (a b : List (List Key)) :
    buildData P (a ++ b) = buildData P a ++ buildData P b := by
  simp [buildData]

theorem buildData_single (P : FilterPolicy) (ks : List Key) :
    buildData P [ks] = chunkOf P ks := by
  simp [buildData]

theorem buildOffsets_length (P : FilterPolicy) (segs : List (List Key)) :
    (buildOffsets P segs).length = segs.length := by
  simp [buildOffsets]

theorem buildOffsets_append_single (P : FilterPolicy) (segs : List (List Key))
    (ks : List Key) :
    buildOffsets P (segs ++ [ks]) =
      buildOffsets P segs ++ [(buildData P segs).length] := by
  unfold buildOffsets
  rw [List.length_append, List.length_singleton, List.range_succ,
    List.map_append]
  congr 1
  · apply List.map_congr_left
    intro t ht
    rw [List.mem_range] at ht
    rw [List.take_append_of_le_length (by omega)]
  · rw [List.map_singleton,
      List.take_append_of_le_length (le_refl segs.length), List.take_length]

theorem buildOffsets_getD (P : FilterPolicy) (segs : List (List Key))
    (t : Nat) (ht : t < segs.length) :
    (buildOffsets P segs).getD t 0 = (buildData P (segs.take t)).length := by
  unfold buildOffsets
  rw [List.getD_eq_getElem _ _ (by simpa using ht)]
  simp

theorem buildData_take_le (P : FilterPolicy) (segs : List (List Key))
    (t : Nat) :
    (buildData P (segs.take t)).length ≤ (buildData P segs).length := by
  conv_rhs => rw [← List.take_append_drop t segs]
  rw [buildData_append]
  simp

theorem buildData_take_mono (P : FilterPolicy) (segs : List (List Key))
    {t u : Nat} (h : t ≤ u) :
    (buildData P (segs.take t)).length ≤
      (buildData P (segs.take u)).length := by
  rw [show segs.take t = (segs.take u).take t from by
    rw [List.take_take, Nat.min_eq_left h]]
  exact buildData_take_le P (segs.take u) t

theorem buildData_take_succ (P : FilterPolicy) (segs : List (List Key))
    (t : Nat) (ht : t < segs.length) :
    buildData P (segs.take (t + 1)) =
      buildData P (segs.take t) ++ chunkOf P (segs.getD t []) := by
  have hsucc : segs.take (t + 1) = segs.take t ++ [segs.getD t []] := by
    rw [List.getD_eq_getElem _ _ ht]
    exact (List.take_concat_get' segs t ht).symm
  rw [hsucc, buildData_append, buildData_single]

theorem take_drop_extract (A C R : List Nat) :
    ((A ++ C ++ R).take (A ++ C).length).drop A.length = C := by
  rw [List.take_left, List.drop_left]

theorem buildData_extract (P : FilterPolicy) (segs : List (List Key))
    (t : Nat) (ht : t < segs.length) :
    ((buildData P segs).take ((buildData P (segs.take (t + 1))).length)).drop
        ((buildData P (segs.take t)).length) = chunkOf P (segs.getD t []) := by
  have h1 : buildData P segs =
      buildData P (segs.take t) ++ chunkOf P (segs.getD t []) ++
        buildData P (segs.drop (t + 1)) := by
    conv_lhs => rw [← List.take_append_drop (t + 1) segs]
    rw [buildData_append, buildData_take_succ P segs t ht]
  have h2 : buildData P (segs.take (t + 1)) =
      buildData P (segs.take t) ++ chunkOf P (segs.getD t []) :=
    buildData_take_succ P segs t ht
  rw [h1, h2]
  exact take_drop_extract _ _ _


theorem bind_eq_ok {α β : Type} (m : Except String α)
    (k : α → Except String β) (b : β) :
    m.bind k = .ok b ↔ ∃ a, m = .ok a ∧ k a = .ok b := by
  cases m <;> simp [Except.bind]

theorem bind_eq_error {α β : Type} (m : Except String α)
    (k : α → Except String β) (e : String) :
    m.bind k = .error e ↔
      m = .error e ∨ ∃ a, m = .ok a ∧ k a = .error e := by
  cases m <;> simp [Except.bind]

theorem appendOffset_eq_error (f : BlockFilterWriter) (e : String) :
    f.appendOffset = .error e ↔
      2 ^ 32 - 1 < f.data.length ∧ e = errFilterTooLong := by
  unfold BlockFilterWriter.appendOffset
  split
  next hc =>
    simp only [Except.error.injEq]
    exact ⟨fun h => ⟨hc, h.symm⟩, fun h => h.2.symm⟩
  next hc =>
    constructor
    · intro h
      exact absurd h (by simp)
    · intro h
      exact absurd h.1 (by omega)

theorem appendOffset_eq_ok (f f' : BlockFilterWriter) :
    f.appendOffset = .ok f' ↔
      f.data.length ≤ 2 ^ 32 - 1 ∧
        f' = { f with offsets := f.offsets ++ [f.data.length] } := by
  unfold BlockFilterWriter.appendOffset
  split
  next hc => simp [hc]; omega
  next hc =>
    simp only [Except.ok.injEq]
    exact ⟨fun h => ⟨by omega, h.symm⟩, fun h => h.2.symm⟩

theorem emit_eq_error (P : FilterPolicy) (f : BlockFilterWriter) (e : String) :
    BlockFilterWriter.emit P f = .error e ↔
      2 ^ 32 - 1 < f.data.length ∧ e = errFilterTooLong := by
  unfold BlockFilterWriter.emit
  rw [bind_eq_error]
  constructor
  · intro h
    rcases h with h | ⟨a, _, ha⟩
    · exact (appendOffset_eq_error f e).mp h
    · split at ha <;> cases ha
  · intro h
    exact Or.inl ((appendOffset_eq_error f e).mpr h)

theorem emit_ok_spec (P : FilterPolicy) (f f' : BlockFilterWriter)
    (h : BlockFilterWriter.emit P f = .ok f') :
    f'.offsets = f.offsets ++ [f.data.length] ∧ f.data.length ≤ 2 ^ 32 - 1 ∧
      f.data.length ≤ f'.data.length := by
  unfold BlockFilterWriter.emit at h
  rw [bind_eq_ok] at h
  obtain ⟨f1, hao, hk⟩ := h
  obtain ⟨hlen, hf1⟩ := (appendOffset_eq_ok f f1).mp hao
  subst hf1
  split at hk <;> simp only [Except.ok.injEq] at hk <;> subst hk <;>
    exact ⟨rfl, by omega, by simp⟩

theorem emit_good (P : FilterPolicy) (segs : List (List Key))
    (f f' : BlockFilterWriter) (hg : GoodWriter P segs f)
    (h : BlockFilterWriter.emit P f = .ok f') :
    GoodWriter P (segs ++ [f.keys]) f' ∧ f'.keys = [] := by
  obtain ⟨hd, ho, hcnt⟩ := hg
  unfold BlockFilterWriter.emit at h
  rw [bind_eq_ok] at h
  obtain ⟨f1, hao, hk⟩ := h
  obtain ⟨hlen, hf1⟩ := (appendOffset_eq_ok f f1).mp hao
  subst hf1
  split at hk <;> simp only [Except.ok.injEq] at hk <;> subst hk
  case isTrue hcount =>
    have hknil : f.keys = [] := by
      have : f.keys.length = 0 := by
        have := hcnt ▸ hcount
        simpa using this
      simpa using this
    refine ⟨⟨?_, ?_, ?_⟩, hknil⟩
    · show f.data = _
      rw [hd, hknil, buildData_append, buildData_single]
      simp [chunkOf]
    · show f.offsets ++ [f.data.length] = _
      rw [ho, hd, hknil, buildOffsets_append_single]
    · show f.count = f.keys.length
      exact hcnt
  case isFalse hcount =>
    have hkne : ¬ f.keys.isEmpty = true := by
      intro hke
      exact hcount (by simp [hcnt, List.isEmpty_iff.mp hke])
    refine ⟨⟨?_, ?_, ?_⟩, rfl⟩
    · show f.data ++ _ = _
      rw [hd, buildData_append, buildData_single, chunkOf, if_neg hkne]
    · show f.offsets ++ [f.data.length] = _
      rw [ho, hd, buildOffsets_append_single]
    · simp

theorem finishBlockLoop_ok_length (P : FilterPolicy) :
    ∀ (fuel i : Nat) (f f' : BlockFilterWriter),
      i ≤ f.offsets.length + fuel →
      BlockFilterWriter.finishBlockLoop P fuel i f = .ok f' →
      f'.offsets.length = max i f.offsets.length ∧
        f.data.length ≤ f'.data.length := by
  intro fuel
  induction fuel with
  | zero =>
    intro i f f' hfuel h
    simp only [BlockFilterWriter.finishBlockLoop, Except.ok.injEq] at h
    subst h
    exact ⟨by omega, le_refl _⟩
  | succ fuel ih =>
    intro i f f' hfuel h
    unfold BlockFilterWriter.finishBlockLoop at h
    split at h
    case isTrue hlt =>
      rw [bind_eq_ok] at h
      obtain ⟨f1, hemit, hrest⟩ := h
      obtain ⟨hoff, _, hdata⟩ := emit_ok_spec P f f1 hemit
      have hlen1 : f1.offsets.length = f.offsets.length + 1 := by simp [hoff]
      obtain ⟨h1, h2⟩ := ih i f1 f' (by omega) hrest
      exact ⟨by rw [h1, hlen1]; omega, by omega⟩
    case isFalse hge =>
      simp only [Except.ok.injEq] at h
      subst h
      exact ⟨by omega, le_refl _⟩

theorem finishBlockLoop_error (P : FilterPolicy) :
    ∀ (fuel i : Nat) (f : BlockFilterWriter) (e : String),
      BlockFilterWriter.finishBlockLoop P fuel i f = .error e →
      e = errFilterTooLong ∧
        ∃ g : BlockFilterWriter, f.data.length ≤ g.data.length ∧
          2 ^ 32 - 1 < g.data.length := by
  intro fuel
  induction fuel with
  | zero =>
    intro i f e h
    simp [BlockFilterWriter.finishBlockLoop] at h
  | succ fuel ih =>
    intro i f e h
    unfold BlockFilterWriter.finishBlockLoop at h
    split at h
    case isTrue hlt =>
      rw [bind_eq_error] at h
      rcases h with h | ⟨f1, hemit, hrest⟩
      · obtain ⟨hlen, he⟩ := (emit_eq_error P f e).mp h
        exact ⟨he, f, le_refl _, hlen⟩
      · obtain ⟨_, _, hdata⟩ := emit_ok_spec P f f1 hemit
        obtain ⟨he, g, hg1, hg2⟩ := ih i f1 e hrest
        exact ⟨he, g, by omega, hg2⟩
    case isFalse hge => cases h

theorem finishBlockLoop_good (P : FilterPolicy) :
    ∀ (fuel i : Nat) (segs : List (List Key)) (f f' : BlockFilterWriter),
      GoodWriter P segs f → i ≤ segs.length + fuel →
      BlockFilterWriter.finishBlockLoop P fuel i f = .ok f' →
      (i ≤ segs.length ∧ f' = f) ∨
        (segs.length < i ∧
          GoodWriter P
            (segs ++ [f.keys] ++ List.replicate (i - segs.length - 1) []) f' ∧
          f'.keys = []) := by
  intro fuel
  induction fuel with
  | zero =>
    intro i segs f f' hg hfuel h
    simp only [BlockFilterWriter.finishBlockLoop, Except.ok.injEq] at h
    exact Or.inl ⟨by omega, h.symm⟩
  | succ fuel ih =>
    intro i segs f f' hg hfuel h
    have hoffl : f.offsets.length = segs.length := by
      rw [hg.2.1, buildOffsets_length]
    unfold BlockFilterWriter.finishBlockLoop at h
    split at h
    case isTrue hlt =>
      rw [hoffl] at hlt
      rw [bind_eq_ok] at h
      obtain ⟨f1, hemit, hrest⟩ := h
      obtain ⟨hg1, hk1⟩ := emit_good P segs f f1 hg hemit
      have hlen1 : (segs ++ [f.keys]).length = segs.length + 1 := by simp
      rcases ih i (segs ++ [f.keys]) f1 f' hg1 (by omega) hrest with
        ⟨hle, hf⟩ | ⟨hlt2, hg2, hk2⟩
      · subst hf
        rw [hlen1] at hle
        right
        have hieq : i = segs.length + 1 := by omega
        refine ⟨by omega, ?_, hk1⟩
        rw [hieq]
        simpa using hg1
      · rw [hlen1] at hlt2
        right
        refine ⟨by omega, ?_, hk2⟩
        rw [hk1, hlen1] at hg2
        have heq : segs ++ [f.keys] ++ [([] : List Key)] ++
            List.replicate (i - (segs.length + 1) - 1) ([] : List Key) =
            segs ++ [f.keys] ++ List.replicate (i - segs.length - 1) [] := by
          rw [List.append_assoc (segs ++ [f.keys])]
          congr 1
          have e2 : i - segs.length - 1 = i - segs.length - 2 + 1 := by omega
          have e1 : i - (segs.length + 1) - 1 = i - segs.length - 2 := by omega
          rw [e1, e2, List.replicate_succ]
          rfl
        rwa [heq] at hg2
    case isFalse hge =>
      rw [hoffl] at hge
      simp only [Except.ok.injEq] at h
      exact Or.inl ⟨by omega, h.symm⟩

theorem finishBlock_ok_length (P : FilterPolicy) (f f' : BlockFilterWriter)
    (off : Nat) (h : f.finishBlock P off = .ok f') :
    f'.offsets.length = max (off >>> filterBaseLog) f.offsets.length ∧
      f.data.length ≤ f'.data.length :=
  finishBlockLoop_ok_length P _ _ f f' (by omega) h

theorem finishBlock_error (P : FilterPolicy) (f : BlockFilterWriter)
    (off : Nat) (e : String) (h : f.finishBlock P off = .error e) :
    e = errFilterTooLong ∧
      ∃ g : BlockFilterWriter, f.data.length ≤ g.data.length ∧
        2 ^ 32 - 1 < g.data.length :=
  finishBlockLoop_error P _ _ f e h

theorem finishBlock_good (P : FilterPolicy) (segs : List (List Key))
    (f f' : BlockFilterWriter) (off : Nat) (hg : GoodWriter P segs f)
    (h : f.finishBlock P off = .ok f') :
    (off >>> filterBaseLog ≤ segs.length ∧ f' = f) ∨
      (segs.length < off >>> filterBaseLog ∧
        GoodWriter P (segs ++ [f.keys] ++
          List.replicate (off >>> filterBaseLog - segs.length - 1) []) f' ∧
        f'.keys = []) :=
  finishBlockLoop_good P _ _ segs f f' hg (by omega) h

theorem addKey_good (P : FilterPolicy) (segs : List (List Key))
    (f : BlockFilterWriter) (k : Key) (h : GoodWriter P segs f) :
    GoodWriter P segs (f.addKey k) := by
  obtain ⟨h1, h2, h3⟩ := h
  refine ⟨h1, h2, ?_⟩
  simp [BlockFilterWriter.addKey, h3]

theorem addKeys_fields (f : BlockFilterWriter) (ks : List Key) :
    (f.addKeys ks).keys = f.keys ++ ks ∧
      (f.addKeys ks).count = f.count + ks.length ∧
      (f.addKeys ks).data = f.data ∧ (f.addKeys ks).offsets = f.offsets := by
  induction ks generalizing f with
  | nil => simp [BlockFilterWriter.addKeys]
  | cons k rest ih =>
    have hstep : f.addKeys (k :: rest) = (f.addKey k).addKeys rest := rfl
    obtain ⟨i1, i2, i3, i4⟩ := ih (f.addKey k)
    rw [hstep]
    refine ⟨?_, ?_, ?_, ?_⟩
    · rw [i1]; simp [BlockFilterWriter.addKey]
    · rw [i2]; simp [BlockFilterWriter.addKey]; omega
    · rw [i3]; rfl
    · rw [i4]; rfl

theorem addKeys_good (P : FilterPolicy) (segs : List (List Key))
    (f : BlockFilterWriter) (ks : List Key) (h : GoodWriter P segs f) :
    GoodWriter P segs (f.addKeys ks) := by
  induction ks generalizing f with
  | nil => exact h
  | cons k rest ih => exact ih (f.addKey k) (addKey_good P segs f k h)

theorem finish_error (P : FilterPolicy) (f : BlockFilterWriter) (e : String)
    (h : BlockFilterWriter.finish P f = .error e) : e = errFilterTooLong := by
  unfold BlockFilterWriter.finish at h
  rw [bind_eq_error] at h
  rcases h with h | ⟨f1, _, h⟩
  · split at h
    · exact ((emit_eq_error P f e).mp h).2
    · cases h
  · rw [bind_eq_error] at h
    rcases h with h | ⟨f2, _, h⟩
    · exact ((appendOffset_eq_error f1 e).mp h).2
    · cases h

theorem finish_oversize (P : FilterPolicy) (f : BlockFilterWriter)
    (h : 2 ^ 32 - 1 < f.data.length) :
    BlockFilterWriter.finish P f = .error errFilterTooLong := by
  unfold BlockFilterWriter.finish
  by_cases hc : f.count ≠ 0
  · rw [if_pos hc, (emit_eq_error P f errFilterTooLong).mpr ⟨h, rfl⟩]
    rfl
  · rw [if_neg hc]
    show (f.appendOffset.bind _) = _
    rw [(appendOffset_eq_error f errFilterTooLong).mpr ⟨h, rfl⟩]
    rfl

theorem finish_good (P : FilterPolicy) (segs : List (List Key))
    (f : BlockFilterWriter) (blob : List Nat) (hg : GoodWriter P segs f)
    (h : BlockFilterWriter.finish P f = .ok blob) :
    ∃ segsF,
      (f.keys = [] ∧ segsF = segs ∨ f.keys ≠ [] ∧ segsF = segs ++ [f.keys]) ∧
      blob = buildData P segsF ++
          (((buildOffsets P segsF ++ [(buildData P segsF).length]).map
            putUint32LE).flatten) ++ [filterBaseLog] ∧
      (buildData P segsF).length ≤ 2 ^ 32 - 1 := by
  obtain ⟨hd, ho, hcnt⟩ := hg
  unfold BlockFilterWriter.finish at h
  rw [bind_eq_ok] at h
  obtain ⟨f1, h1, h⟩ := h
  rw [bind_eq_ok] at h
  obtain ⟨f2, h2, h⟩ := h
  simp only [Except.ok.injEq] at h
  subst h
  obtain ⟨hlen2, hf2⟩ := (appendOffset_eq_ok f1 f2).mp h2
  subst hf2
  by_cases hc : f.count ≠ 0
  · rw [if_pos hc] at h1
    obtain ⟨hg1, hk1⟩ := emit_good P segs f f1 ⟨hd, ho, hcnt⟩ h1
    have hkne : f.keys ≠ [] := by
      intro hnil
      exact hc (by rw [hcnt, hnil]; rfl)
    refine ⟨segs ++ [f.keys], Or.inr ⟨hkne, rfl⟩, ?_, ?_⟩
    · show f1.data ++ ((f1.offsets ++ [f1.data.length]).map putUint32LE).flatten
          ++ [filterBaseLog] = _
      rw [hg1.1, hg1.2.1]
    · rw [← hg1.1]
      exact hlen2
  · rw [if_neg hc] at h1
    simp only [Except.ok.injEq] at h1
    subst h1
    have hknil : f.keys = [] := by
      have hc0 : f.count = 0 := by omega
      have : f.keys.length = 0 := by omega
      simpa using this
    refine ⟨segs, Or.inl ⟨hknil, rfl⟩, ?_, ?_⟩
    · show f.data ++ ((f.offsets ++ [f.data.length]).map putUint32LE).flatten
          ++ [filterBaseLog] = _
      rw [hd, ho]
    · rw [← hd]
      exact hlen2

theorem shiftRight_le_shiftRight {a b : Nat} (n : Nat) (h : a ≤ b) :
    a >>> n ≤ b >>> n := by
  simp only [Nat.shiftRight_eq_div_pow]
  exact Nat.div_le_div_right h

theorem table_entry (P : FilterPolicy) (segs : List (List Key)) (t : Nat)
    (ht : t ≤ segs.length) :
    (buildOffsets P segs ++ [(buildData P segs).length]).getD t 0 =
      (buildData P (segs.take t)).length := by
  rcases Nat.lt_or_ge t segs.length with h | h
  · rw [List.getD_append _ _ _ _ (by rw [buildOffsets_length]; exact h)]
    exact buildOffsets_getD P segs t h
  · have ht' : t = segs.length := by omega
    subst ht'
    rw [List.getD_append_right _ _ _ _ (by rw [buildOffsets_length])]
    rw [buildOffsets_length]
    simp [List.take_length]

theorem newBlockFilterReader_blob (P : FilterPolicy) (D offs : List Nat)
    (hne : offs ≠ []) (hlast : offs.getD (offs.length - 1) 0 = D.length)
    (hD : D.length ≤ 2 ^ 32 - 1) :
    newBlockFilterReader
        (D ++ (offs.map putUint32LE).flatten ++ [filterBaseLog]) P =
      some { policy := P, lastOffset := D.length, shift := filterBaseLog } := by
  have hTlen : ((offs.map putUint32LE).flatten).length = 4 * offs.length :=
    encTable_length offs
  have hK : 1 ≤ offs.length := List.length_pos.mpr hne
  have hlen : (D ++ (offs.map putUint32LE).flatten ++
      [filterBaseLog]).length = D.length + 4 * offs.length + 1 := by
    simp [hTlen]
    omega
  have hread : readUint32LE
      (D ++ (offs.map putUint32LE).flatten ++ [filterBaseLog])
      ((D ++ (offs.map putUint32LE).flatten ++ [filterBaseLog]).length - 5) =
      D.length := by
    rw [hlen]
    have hpos : D.length + 4 * offs.length + 1 - 5 =
        D.length + 4 * (offs.length - 1) := by omega
    rw [hpos, blob_read D _ [filterBaseLog] _ (by omega),
      readUint32LE_encTable offs (offs.length - 1) (by omega), hlast,
      Nat.mod_eq_of_lt (by omega)]
  unfold newBlockFilterReader
  rw [if_neg (by rw [hlen]; omega)]
  simp only [hread]
  rw [if_neg (by rw [hlen]; omega)]
  rw [blob_table D _ filterBaseLog]
  rw [if_neg (by rw [hTlen]; omega)]
  rw [blob_shift_byte D _ filterBaseLog]

theorem mayContain_built_blob (P : FilterPolicy) (segsF : List (List Key))
    (hP : ∀ (ks : List Key) (k : Key), k ∈ ks →
      P.mayContain .blockFilter (P.finishSegment .blockFilter ks) k = true)
    (hD : (buildData P segsF).length ≤ 2 ^ 32 - 1) (off : Nat) (key : Key)
    (hidx : off >>> filterBaseLog < segsF.length)
    (hmem : key ∈ segsF.getD (off >>> filterBaseLog) []) :
    BlockFilterReader.mayContain
      { policy := P, lastOffset := (buildData P segsF).length,
        shift := filterBaseLog }
      (buildData P segsF ++
        (((buildOffsets P segsF ++ [(buildData P segsF).length]).map
          putUint32LE).flatten) ++ [filterBaseLog]) off key = true := by
  have hoffslen :
      (buildOffsets P segsF ++ [(buildData P segsF).length]).length =
        segsF.length + 1 := by
    simp [buildOffsets_length]
  have hTlen :
      (((buildOffsets P segsF ++ [(buildData P segsF).length]).map
        putUint32LE).flatten).length = 4 * (segsF.length + 1) := by
    rw [encTable_length, hoffslen]
  unfold BlockFilterReader.mayContain
  simp only [blob_take_data, blob_table]
  rw [hTlen]
  have hb0 : ¬ (4 * (segsF.length + 1) / 4 = 0) := by omega
  rw [if_neg hb0]
  have hbound : 4 * (segsF.length + 1) / 4 - 1 = segsF.length := by omega
  rw [hbound, if_neg (by omega)]
  have hentry : ∀ t, t ≤ segsF.length →
      readUint32LE
        (((buildOffsets P segsF ++ [(buildData P segsF).length]).map
          putUint32LE).flatten) (4 * t) =
        (buildData P (segsF.take t)).length := by
    intro t ht
    rw [readUint32LE_encTable _ t (by omega), table_entry P segsF t ht,
      Nat.mod_eq_of_lt (by have := buildData_take_le P segsF t; omega)]
  have hi := hentry (off >>> filterBaseLog) (by omega)
  have hj4 : 4 * (off >>> filterBaseLog) + 4 =
      4 * (off >>> filterBaseLog + 1) := by ring
  have hj := hentry (off >>> filterBaseLog + 1) (by omega)
  rw [hi, hj4, hj]
  have hsucc := buildData_take_succ P segsF (off >>> filterBaseLog) hidx
  have hAB : (buildData P (segsF.take (off >>> filterBaseLog + 1))).length =
      (buildData P (segsF.take (off >>> filterBaseLog))).length +
        (chunkOf P (segsF.getD (off >>> filterBaseLog) [])).length := by
    rw [hsucc, List.length_append]
  by_cases hch : (chunkOf P (segsF.getD (off >>> filterBaseLog) [])).length = 0
  · rw [if_pos (Or.inl (by omega))]
  · have hjle : (buildData P (segsF.take (off >>> filterBaseLog + 1))).length ≤
        (buildData P segsF).length := buildData_take_le P segsF _
    rw [if_neg (by push_neg; constructor <;> omega)]
    rw [buildData_extract P segsF (off >>> filterBaseLog) hidx]
    have hksne : ¬ (segsF.getD (off >>> filterBaseLog) []).isEmpty = true := by
      intro hke
      rw [chunkOf, if_pos hke] at hch
      exact hch rfl
    rw [chunkOf, if_neg hksne]
    exact hP _ key hmem

theorem covers_pending_mono (segs : List (List Key)) (pend pend' : List Key)
    (hsub : ∀ x ∈ pend, x ∈ pend') (p : Key × Nat)
    (h : Covers segs pend p) : Covers segs pend' p := by
  rcases h with h | ⟨h1, h2⟩
  · exact Or.inl h
  · exact Or.inr ⟨h1, hsub _ h2⟩

theorem covers_extend (segs : List (List Key)) (pend : List Key)
    (ext : List (List Key)) (hext : ext.getD 0 [] = pend ∧ 0 < ext.length)
    (pend' : List Key) (p : Key × Nat) (h : Covers segs pend p) :
    Covers (segs ++ ext) pend' p := by
  rcases h with ⟨h1, h2⟩ | ⟨h1, h2⟩
  · left
    refine ⟨by simp; omega, ?_⟩
    rwa [List.getD_append _ _ _ _ h1]
  · left
    refine ⟨by simp; omega, ?_⟩
    rw [h1, List.getD_append_right _ _ _ _ (le_refl _), Nat.sub_self, hext.1]
    exact h2

theorem runPairs_good (P : FilterPolicy) :
    ∀ (pairs : List (Key × Nat)) (prev : Nat) (f f' : BlockFilterWriter)
      (segs : List (List Key)),
      GoodWriter P segs f →
      segs.length = prev >>> filterBaseLog →
      List.Chain (fun a b => a ≤ b) prev (pairs.map Prod.snd) →
      runPairs P prev f pairs = .ok f' →
      ∃ (segs' : List (List Key)) (prev' : Nat), GoodWriter P segs' f' ∧
        segs'.length = prev' >>> filterBaseLog ∧
        (∀ p, Covers segs f.keys p → Covers segs' f'.keys p) ∧
        (∀ p ∈ pairs, Covers segs' f'.keys p) := by
  intro pairs
  induction pairs with
  | nil =>
    intro prev f f' segs hg hpl hchain h
    simp only [runPairs, Except.ok.injEq] at h
    subst h
    exact ⟨segs, prev, hg, hpl, fun p hc => hc, by simp⟩
  | cons p rest ih =>
    intro prev f f' segs hg hpl hchain h
    obtain ⟨k, off⟩ := p
    rw [List.map_cons] at hchain
    cases hchain with
    | cons hle hchain' =>
    have hmle : prev >>> filterBaseLog ≤ off >>> filterBaseLog :=
      shiftRight_le_shiftRight filterBaseLog hle
    unfold runPairs at h
    split at h
    case isTrue hlt =>
      rw [bind_eq_ok] at h
      obtain ⟨f1, hfb, hrest⟩ := h
      rcases finishBlock_good P segs f f1 off hg hfb with
        ⟨hle2, hf1⟩ | ⟨hlt2, hg1, hk1⟩
      · subst hf1
        have hieq : off >>> filterBaseLog = segs.length := by omega
        obtain ⟨segs', prev', hg', hpl', hpres, hcov⟩ :=
          ih off (f1.addKey k) f' segs (addKey_good P segs f1 k hg)
            (by omega) hchain' hrest
        refine ⟨segs', prev', hg', hpl', ?_, ?_⟩
        · intro q hc
          refine hpres q (covers_pending_mono segs f1.keys _ ?_ q hc)
          intro x hx
          simp [BlockFilterWriter.addKey, hx]
        · intro q hq
          rcases List.mem_cons.mp hq with rfl | hq'
          · refine hpres (k, off) (Or.inr ⟨hieq, ?_⟩)
            simp [BlockFilterWriter.addKey]
          · exact hcov q hq'
      · have hlen1 : (segs ++ [f.keys] ++
            List.replicate (off >>> filterBaseLog - segs.length - 1)
              ([] : List Key)).length = off >>> filterBaseLog := by
          simp
          omega
        obtain ⟨segs', prev', hg', hpl', hpres, hcov⟩ :=
          ih off (f1.addKey k) f' _ (addKey_good P _ f1 k hg1)
            (by rw [hlen1]) hchain' hrest
        refine ⟨segs', prev', hg', hpl', ?_, ?_⟩
        · intro q hc
          apply hpres
          rw [List.append_assoc]
          refine covers_extend segs f.keys
            ([f.keys] ++ List.replicate
              (off >>> filterBaseLog - segs.length - 1) [])
            ⟨by simp, by simp⟩ _ q hc
        · intro q hq
          rcases List.mem_cons.mp hq with rfl | hq'
          · refine hpres (k, off) (Or.inr ⟨by rw [hlen1], ?_⟩)
            simp [BlockFilterWriter.addKey, hk1]
          · exact hcov q hq'
    case isFalse hge =>
      have heq : off = prev := by omega
      subst heq
      obtain ⟨segs', prev', hg', hpl', hpres, hcov⟩ :=
        ih off (f.addKey k) f' segs (addKey_good P segs f k hg) hpl
          hchain' h
      refine ⟨segs', prev', hg', hpl', ?_, ?_⟩
      · intro q hc
        refine hpres q (covers_pending_mono segs f.keys _ ?_ q hc)
        intro x hx
        simp [BlockFilterWriter.addKey, hx]
      · intro q hq
        rcases List.mem_cons.mp hq with rfl | hq'
        · refine hpres (k, off) (Or.inr ⟨?_, ?_⟩)
          · show off >>> filterBaseLog = segs.length
            omega
          · simp [BlockFilterWriter.addKey]
        · exact hcov q hq'

theorem covers_to_final (segs' : List (List Key)) (pend : List Key)
    (segsF : List (List Key))
    (hcase : pend = [] ∧ segsF = segs' ∨
      pend ≠ [] ∧ segsF = segs' ++ [pend])
    (p : Key × Nat) (h : Covers segs' pend p) :
    p.2 >>> filterBaseLog < segsF.length ∧
      p.1 ∈ segsF.getD (p.2 >>> filterBaseLog) [] := by
  rcases hcase with ⟨hnil, rfl⟩ | ⟨hne, rfl⟩
  · rcases h with ⟨h1, h2⟩ | ⟨h1, h2⟩
    · exact ⟨h1, h2⟩
    · rw [hnil] at h2
      cases h2
  · rcases h with ⟨h1, h2⟩ | ⟨h1, h2⟩
    · refine ⟨by simp; omega, ?_⟩
      rwa [List.getD_append _ _ _ _ h1]
    · refine ⟨by simp; omega, ?_⟩
      rw [h1, List.getD_append_right _ _ _ _ (le_refl _), Nat.sub_self]
      simpa using h2

/-- Claim C1: for every sequence of `(key, blockOffset)` pairs fed to a
per-block filter writer with monotonically non-decreasing block offsets,
after `finish` and reconstruction of a reader from the resulting blob,
`mayContain (blockOffset, key)` returns true for every key that was added
under that block offset, assuming the policy's query answers true for
every key accumulated into the queried segment. -/
theorem C1_no_false_negatives (P : FilterPolicy)
    (hP : ∀ (ks : List Key) (k : Key), k ∈ ks →
      P.mayContain .blockFilter (P.finishSegment .blockFilter ks) k = true)
    (pairs : List (Key × Nat))
    (hmono : List.Chain (fun a b => a ≤ b) 0 (pairs.map Prod.snd))
    (fw : BlockFilterWriter) (blob : List Nat) (r : BlockFilterReader)
    (hrun : runPairs P 0 newBlockFilterWriter pairs = .ok fw)
    (hfin : BlockFilterWriter.finish P fw = .ok blob)
    (hrd : newBlockFilterReader blob P = some r) :
    ∀ p ∈ pairs, r.mayContain blob p.2 p.1 = true := by
  have hg0 : GoodWriter P [] newBlockFilterWriter := ⟨rfl, rfl, rfl⟩
  obtain ⟨segs', prev', hg', hpl', hpres, hcov⟩ :=
    runPairs_good P pairs 0 newBlockFilterWriter fw [] hg0 rfl hmono hrun
  obtain ⟨segsF, hcase, hblob, hsize⟩ := finish_good P segs' fw blob hg' hfin
  have hlastF : (buildOffsets P segsF ++
      [(buildData P segsF).length]).getD
      ((buildOffsets P segsF ++ [(buildData P segsF).length]).length - 1) 0 =
      (buildData P segsF).length := by
    have hl : (buildOffsets P segsF ++
        [(buildData P segsF).length]).length = segsF.length + 1 := by
      simp [buildOffsets_length]
    rw [hl]
    have ht := table_entry P segsF segsF.length (le_refl _)
    simpa [List.take_length] using ht
  have hrd2 : newBlockFilterReader blob P =
      some { policy := P, lastOffset := (buildData P segsF).length,
             shift := filterBaseLog } := by
    rw [hblob]
    exact newBlockFilterReader_blob P _ _ (by simp) hlastF hsize
  have hreq : r = { policy := P, lastOffset := (buildData P segsF).length,
                    shift := filterBaseLog } := by
    rw [hrd] at hrd2
    exact Option.some.inj hrd2
  intro p hp
  rw [hreq, hblob]
  have hcf := covers_to_final segs' fw.keys segsF hcase p (hcov p hp)
  exact mayContain_built_blob P segsF hP hsize p.2 p.1 hcf.1 hcf.2

theorem C1_no_false_negatives_witness :
    BlockFilterReader.mayContain
        { policy := trivialPolicy, lastOffset := 2, shift := 11 }
        [1, 1, 0, 0, 0, 0, 1, 0, 0, 0, 2, 0, 0, 0, 11] 0 [1] = true ∧
      BlockFilterReader.mayContain
        { policy := trivialPolicy, lastOffset := 2, shift := 11 }
        [1, 1, 0, 0, 0, 0, 1, 0, 0, 0, 2, 0, 0, 0, 11] 2048 [2] = true := by
  have h := C1_no_false_negatives trivialPolicy
    (fun ks k hk => rfl)
    [([1], 0), ([2], 2048)]
    (by refine List.Chain.cons ?_ (List.Chain.cons ?_ List.Chain.nil) <;>
      omega)
    { keys := [[2]], count := 1, data := [1], offsets := [0] }
    [1, 1, 0, 0, 0, 0, 1, 0, 0, 0, 2, 0, 0, 0, 11]
    { policy := trivialPolicy, lastOffset := 2, shift := 11 }
    rfl rfl rfl
  exact ⟨h ([1], 0) (by simp), h ([2], 2048) (by simp)⟩

theorem region_length (D : List Nat) (L : Nat) :
    ((D.take (D.length - 1)).drop L).length = D.length - 1 - L := by
  rw [List.length_drop, List.length_take]
  omega

theorem newBlockFilterReader_some_iff (D : List Nat) (P : FilterPolicy)
    (r : BlockFilterReader) :
    newBlockFilterReader D P = some r ↔
      5 ≤ D.length ∧ readUint32LE D (D.length - 5) ≤ D.length - 5 ∧
        (D.length - 1 - readUint32LE D (D.length - 5)) % 4 = 0 ∧
        r = { policy := P, lastOffset := readUint32LE D (D.length - 5),
              shift := D.getD (D.length - 1) 0 } := by
  unfold newBlockFilterReader
  split
  next hlt =>
    simp only [reduceCtorEq, false_iff]
    intro hc
    omega
  next hge =>
    simp only [region_length]
    split
    next hlt2 =>
      simp only [reduceCtorEq, false_iff]
      intro hc
      omega
    next hge2 =>
      split
      next hmod =>
        simp only [reduceCtorEq, false_iff]
        intro hc
        exact hmod hc.2.2.1
      next hmod =>
        simp only [Option.some.injEq]
        constructor
        · intro h
          push_neg at hmod
          exact ⟨by omega, by omega, hmod, h.symm⟩
        · intro h
          exact h.2.2.2.symm

theorem newBlockFilterReader_eq_none_iff (D : List Nat) (P : FilterPolicy) :
    newBlockFilterReader D P = none ↔
      D.length < 5 ∨ D.length - 5 < readUint32LE D (D.length - 5) ∨
        (D.length - 1 - readUint32LE D (D.length - 5)) % 4 ≠ 0 := by
  constructor
  · intro h
    by_contra hc
    push_neg at hc
    obtain ⟨h1, h2, h3⟩ := hc
    have hs := (newBlockFilterReader_some_iff D P
      { policy := P, lastOffset := readUint32LE D (D.length - 5),
        shift := D.getD (D.length - 1) 0 }).mpr ⟨by omega, h2, h3, rfl⟩
    rw [h] at hs
    cases hs
  · intro h
    cases hopt : newBlockFilterReader D P with
    | none => rfl
    | some r =>
      obtain ⟨h1, h2, h3, _⟩ := (newBlockFilterReader_some_iff D P r).mp hopt
      rcases h with h | h | h
      · omega
      · omega
      · exact absurd h3 h

/-- Claim C2: for every successfully constructed per-block reader,
`mayContain` agrees with the spec's description (index past the table
fails open, `low ≥ high` or `high` past the segment data fails open,
otherwise it is exactly the policy query over `segments[low:high]`), and
in particular any block offset mapping at or past the last real segment
answers true. -/
theorem C2_mayContain_refines_spec (D : List Nat) (P : FilterPolicy)
    (r : BlockFilterReader) (hrd : newBlockFilterReader D P = some r) :
    ∀ (off : Nat) (key : Key),
      r.mayContain D off key = mayContainPerSpec r D off key ∧
      (((D.take (D.length - 1)).drop r.lastOffset).length / 4 - 1 ≤
          off >>> r.shift →
        r.mayContain D off key = true) := by
  obtain ⟨h5, hle, hmod, hr⟩ := (newBlockFilterReader_some_iff D P r).mp hrd
  have hL : r.lastOffset = readUint32LE D (D.length - 5) := by rw [hr]
  intro off key
  have hb0 : ¬ (((D.take (D.length - 1)).drop r.lastOffset).length / 4
      = 0) := by
    rw [hL, region_length]
    omega
  constructor
  · simp only [BlockFilterReader.mayContain, mayContainPerSpec]
    rw [if_neg hb0]
  · intro hpast
    simp only [BlockFilterReader.mayContain]
    rw [if_neg hb0, if_pos hpast]

theorem C2_mayContain_refines_spec_witness :
    BlockFilterReader.mayContain
        { policy := trivialPolicy, lastOffset := 0, shift := 11 }
        [0, 0, 0, 0, 11] 0 [] =
      mayContainPerSpec
        { policy := trivialPolicy, lastOffset := 0, shift := 11 }
        [0, 0, 0, 0, 11] 0 [] ∧
      BlockFilterReader.mayContain
        { policy := trivialPolicy, lastOffset := 0, shift := 11 }
        [0, 0, 0, 0, 11] 0 [] = true := by
  have h := C2_mayContain_refines_spec [0, 0, 0, 0, 11] trivialPolicy
    { policy := trivialPolicy, lastOffset := 0, shift := 11 } rfl 0 []
  exact ⟨h.1, h.2 (by decide)⟩

/-- Claim C5: reader construction returns the unusable result exactly when
the blob is structurally invalid (shorter than 5 bytes, sentinel beyond
the space for segment data, or offset-table region not a multiple of 4
bytes); in particular any blob of length 3 is unusable. -/
theorem C5_reader_validation (D : List Nat) (P : FilterPolicy) :
    (newBlockFilterReader D P = none ↔
      D.length < 5 ∨ D.length - 5 < readUint32LE D (D.length - 5) ∨
        (D.length - 1 - readUint32LE D (D.length - 5)) % 4 ≠ 0) ∧
    (D.length = 3 → newBlockFilterReader D P = none) :=
  ⟨newBlockFilterReader_eq_none_iff D P,
    fun h => (newBlockFilterReader_eq_none_iff D P).mpr (Or.inl (by omega))⟩

theorem C5_reader_validation_witness :
    newBlockFilterReader [0, 0, 0] trivialPolicy = none :=
  (C5_reader_validation [0, 0, 0] trivialPolicy).2 rfl

/-- Claim C10: for a reader successfully constructed from a blob `D`,
every byte access `mayContain` performs on that same `D` is in bounds:
the segment and offset-table slices, the two 4-byte reads at `4 * index`
and `4 * index + 4` (whenever the index guard passes), and the final
segment slice `data[i:j]`. -/
theorem C10_mayContain_in_bounds (D : List Nat) (P : FilterPolicy)
    (r : BlockFilterReader) (hrd : newBlockFilterReader D P = some r) :
    r.lastOffset + 5 ≤ D.length ∧
      4 ≤ ((D.take (D.length - 1)).drop r.lastOffset).length ∧
      (∀ off : Nat,
        off >>> r.shift <
            ((D.take (D.length - 1)).drop r.lastOffset).length / 4 - 1 →
          4 * (off >>> r.shift) + 4 + 4 ≤
            ((D.take (D.length - 1)).drop r.lastOffset).length) ∧
      (∀ i j : Nat, ¬ (j ≤ i ∨ (D.take r.lastOffset).length < j) →
        i < j ∧ j ≤ (D.take r.lastOffset).length) := by
  obtain ⟨h5, hle, hmod, hr⟩ := (newBlockFilterReader_some_iff D P r).mp hrd
  have hL : r.lastOffset = readUint32LE D (D.length - 5) := by rw [hr]
  have hreglen : ((D.take (D.length - 1)).drop r.lastOffset).length =
      D.length - 1 - readUint32LE D (D.length - 5) := by
    rw [hL, region_length]
  have htake : (D.take r.lastOffset).length =
      readUint32LE D (D.length - 5) := by
    rw [hL, List.length_take]
    omega
  refine ⟨by omega, ?_, ?_, ?_⟩
  · rw [hreglen]
    omega
  · intro off hidx
    rw [hreglen] at hidx ⊢
    omega
  · intro i j h
    rw [htake] at h ⊢
    rw [not_or] at h
    push_neg at h
    exact ⟨h.1, by omega⟩

theorem C10_mayContain_in_bounds_witness :
    (0 : Nat) + 5 ≤ ([0, 0, 0, 0, 11] : List Nat).length := by
  have h := C10_mayContain_in_bounds [0, 0, 0, 0, 11] trivialPolicy
    { policy := trivialPolicy, lastOffset := 0, shift := 11 } rfl
  exact h.1

/-- Claim C9: every blob produced by a successful per-block `finish` is
accepted by `newBlockFilterReader`; the reconstructed reader has
`shift = filterBaseLog = 11` and `lastOffset` equal to the blob's
segment-data length (the sentinel entry of its offset table). -/
theorem C9_finish_roundtrip (P : FilterPolicy) (f : BlockFilterWriter)
    (blob : List Nat) (h : BlockFilterWriter.finish P f = .ok blob) :
    ∃ (segdata table : List Nat),
      blob = segdata ++ (table.map putUint32LE).flatten ++ [filterBaseLog] ∧
      table.getLast? = some segdata.length ∧
      filterBaseLog = 11 ∧
      newBlockFilterReader blob P =
        some { policy := P, lastOffset := segdata.length,
               shift := filterBaseLog } := by
  unfold BlockFilterWriter.finish at h
  rw [bind_eq_ok] at h
  obtain ⟨f1, h1, h⟩ := h
  rw [bind_eq_ok] at h
  obtain ⟨f2, h2, h⟩ := h
  simp only [Except.ok.injEq] at h
  subst h
  obtain ⟨hlen2, hf2⟩ := (appendOffset_eq_ok f1 f2).mp h2
  subst hf2
  refine ⟨f1.data, f1.offsets ++ [f1.data.length], rfl, ?_, rfl, ?_⟩
  · exact List.getLast?_concat _
  · apply newBlockFilterReader_blob P f1.data (f1.offsets ++ [f1.data.length])
      (by simp) ?_ hlen2
    rw [List.length_append, List.length_singleton, Nat.add_sub_cancel,
      List.getD_append_right _ _ _ _ (le_refl _), Nat.sub_self]
    rfl

theorem C9_finish_roundtrip_witness :
    ∃ (segdata table : List Nat),
      ([0, 0, 0, 0, 11] : List Nat) =
        segdata ++ (table.map putUint32LE).flatten ++ [filterBaseLog] ∧
      table.getLast? = some segdata.length ∧
      filterBaseLog = 11 ∧
      newBlockFilterReader [0, 0, 0, 0, 11] trivialPolicy =
        some { policy := trivialPolicy, lastOffset := segdata.length,
               shift := filterBaseLog } :=
  C9_finish_roundtrip trivialPolicy newBlockFilterWriter [0, 0, 0, 0, 11] rfl

/-- Claim C3 counterexample: as stated the claim requires
`finishBlock(blockOffset)` to have emitted at least
`blockOffset >> shift + 1` segments, but `finishBlock 0` on a fresh writer
returns successfully having emitted none. -/
theorem C3_counterexample :
    newBlockFilterWriter.finishBlock trivialPolicy 0 =
        .ok newBlockFilterWriter ∧
      newBlockFilterWriter.offsets.length < 0 >>> filterBaseLog + 1 :=
  ⟨rfl, by decide⟩

/-- Claim C3 (amended): after `finishBlock blockOffset` returns without
error, all segments for windows strictly before the window containing
`blockOffset` have been emitted: the number of emitted segments is at
least `blockOffset >> shift` (exactly the maximum of that and the count
already emitted), not `blockOffset >> shift + 1` as stated. -/
theorem C3_finishBlock_emits_preceding (P : FilterPolicy)
    (f f' : BlockFilterWriter) (off : Nat)
    (h : f.finishBlock P off = .ok f') :
    off >>> filterBaseLog ≤ f'.offsets.length ∧
      f'.offsets.length = max (off >>> filterBaseLog) f.offsets.length := by
  have hl := finishBlock_ok_length P f f' off h
  exact ⟨by omega, hl.1⟩

theorem C3_finishBlock_emits_preceding_witness :
    4096 >>> filterBaseLog ≤
        ({ keys := [], count := 0, data := [],
           offsets := [0, 0] } : BlockFilterWriter).offsets.length ∧
      ({ keys := [], count := 0, data := [],
         offsets := [0, 0] } : BlockFilterWriter).offsets.length =
        max (4096 >>> filterBaseLog) newBlockFilterWriter.offsets.length :=
  C3_finishBlock_emits_preceding trivialPolicy newBlockFilterWriter _ 4096 rfl

/-- Claim C4: `finishBlock` emits while `blockOffset >> shift` exceeds the
number of segments already emitted, one segment and one boundary per
iteration; `finishBlock 0` emits nothing, and a following
`finishBlock 4096` (shift 11) leaves at least 2 emitted segments whatever
keys were added; with no keys at all the two segments are empty
(`low == high`) ranges recorded in one call. -/
theorem C4_window_emission (P : FilterPolicy) :
    (∀ f f' : BlockFilterWriter, BlockFilterWriter.emit P f = .ok f' →
      f'.offsets.length = f.offsets.length + 1) ∧
    (∀ f : BlockFilterWriter, f.finishBlock P 0 = .ok f) ∧
    (∀ (ks1 ks2 : List Key) (f2 : BlockFilterWriter),
      ((newBlockFilterWriter.addKeys ks1).addKeys ks2).finishBlock P 4096 =
        .ok f2 → 2 ≤ f2.offsets.length) ∧
    newBlockFilterWriter.finishBlock P 4096 =
      .ok { keys := [], count := 0, data := [], offsets := [0, 0] } := by
  refine ⟨?_, ?_, ?_, ?_⟩
  · intro f f' h
    rw [(emit_ok_spec P f f' h).1]
    simp
  · intro f
    simp [BlockFilterWriter.finishBlock, BlockFilterWriter.finishBlockLoop]
  · intro ks1 ks2 f2 h
    have hl := (finishBlock_ok_length P _ f2 4096 h).1
    have h2 : (4096 : Nat) >>> filterBaseLog = 2 := by decide
    rw [h2] at hl
    omega
  · rfl

theorem C4_window_emission_witness :
    ({ keys := [], count := 0, data := [],
       offsets := [0] } : BlockFilterWriter).offsets.length =
      newBlockFilterWriter.offsets.length + 1 :=
  (C4_window_emission trivialPolicy).1 newBlockFilterWriter _ rfl

/-- Claim C6: the boundary/sentinel recording step fails exactly when the
accumulated segment data exceeds `2 ^ 32 - 1` bytes, always with the
"filter data is too long" error; `finishBlock` and `finish` fail only
with that error and only when some recording moment saw oversize data,
and an oversize state makes them fail. -/
theorem C6_filter_too_large (P : FilterPolicy) :
    (∀ f : BlockFilterWriter,
      (∃ e, f.appendOffset = .error e) ↔ 2 ^ 32 - 1 < f.data.length) ∧
    (∀ (f : BlockFilterWriter) (e : String), f.appendOffset = .error e →
      e = errFilterTooLong) ∧
    (∀ (f : BlockFilterWriter) (off : Nat) (e : String),
      f.finishBlock P off = .error e →
        e = errFilterTooLong ∧ ∃ g : BlockFilterWriter,
          f.data.length ≤ g.data.length ∧ 2 ^ 32 - 1 < g.data.length) ∧
    (∀ (f : BlockFilterWriter) (e : String),
      BlockFilterWriter.finish P f = .error e → e = errFilterTooLong) ∧
    (∀ (f : BlockFilterWriter) (off : Nat),
      f.offsets.length < off >>> filterBaseLog →
      2 ^ 32 - 1 < f.data.length →
        f.finishBlock P off = .error errFilterTooLong) ∧
    (∀ f : BlockFilterWriter, 2 ^ 32 - 1 < f.data.length →
      BlockFilterWriter.finish P f = .error errFilterTooLong) := by
  refine ⟨?_, ?_, ?_, ?_, ?_, ?_⟩
  · intro f
    constructor
    · intro ⟨e, he⟩
      exact ((appendOffset_eq_error f e).mp he).1
    · intro h
      exact ⟨errFilterTooLong, (appendOffset_eq_error f _).mpr ⟨h, rfl⟩⟩
  · intro f e he
    exact ((appendOffset_eq_error f e).mp he).2
  · intro f off e h
    exact finishBlock_error P f off e h
  · intro f e h
    exact finish_error P f e h
  · intro f off hlt hlen
    unfold BlockFilterWriter.finishBlock BlockFilterWriter.finishBlockLoop
    rw [if_pos hlt, (emit_eq_error P f errFilterTooLong).mpr ⟨hlen, rfl⟩]
    rfl
  · exact fun f h => finish_oversize P f h


theorem C6_filter_too_large_witness :
    BlockFilterWriter.finish trivialPolicy
      { keys := [], count := 0, data := List.replicate (2 ^ 32) 0,
        offsets := [] } = .error errFilterTooLong := by
  apply (C6_filter_too_large trivialPolicy).2.2.2.2.2
  show 2 ^ 32 - 1 < (List.replicate (2 ^ 32) 0).length
  rw [List.length_replicate]
  omega

/-- Claim C8: a whole-table filter writer with no keys finishes to the
empty (`nil`) result; a fresh per-block filter writer finishes to the
minimal 5-byte blob (zero sentinel plus shift byte), which reconstructs
to a reader answering true for every block offset and key. -/
theorem C8_empty_writers (P : FilterPolicy) :
    TableFilterWriter.finish P newTableFilterWriter = none ∧
    BlockFilterWriter.finish P newBlockFilterWriter =
      .ok [0, 0, 0, 0, filterBaseLog] ∧
    newBlockFilterReader [0, 0, 0, 0, filterBaseLog] P =
      some { policy := P, lastOffset := 0, shift := filterBaseLog } ∧
    (∀ (off : Nat) (key : Key),
      BlockFilterReader.mayContain
        { policy := P, lastOffset := 0, shift := filterBaseLog }
        [0, 0, 0, 0, filterBaseLog] off key = true) :=
  ⟨rfl, rfl, rfl, fun off key => by simp [BlockFilterReader.mayContain]⟩

theorem entries_chain (P : FilterPolicy) (segsF : List (List Key)) :
    List.Chain' (fun a b => a ≤ b)
      (buildOffsets P segsF ++ [(buildData P segsF).length]) := by
  rw [List.chain'_iff_get]
  intro i h
  have hlen : (buildOffsets P segsF ++
      [(buildData P segsF).length]).length = segsF.length + 1 := by
    simp [buildOffsets_length]
  rw [hlen] at h
  have e1 : ∀ (j : Nat)
      (hj : j < (buildOffsets P segsF ++
        [(buildData P segsF).length]).length),
      (buildOffsets P segsF ++ [(buildData P segsF).length]).get ⟨j, hj⟩ =
        (buildData P (segsF.take j)).length := by
    intro j hj
    rw [List.get_eq_getElem, ← List.getD_eq_getElem _ 0 hj]
    exact table_entry P segsF j (by rw [hlen] at hj; omega)
  rw [e1 i _, e1 (i + 1) _]
  exact buildData_take_mono P segsF (by omega)

theorem blob_sentinel (D offs : List Nat) (s : Nat) (hne : offs ≠ [])
    (hlast : offs.getD (offs.length - 1) 0 = D.length)
    (hD : D.length ≤ 2 ^ 32 - 1) :
    readUint32LE (D ++ (offs.map putUint32LE).flatten ++ [s])
      ((D ++ (offs.map putUint32LE).flatten ++ [s]).length - 5) =
      D.length := by
  have hTlen : ((offs.map putUint32LE).flatten).length = 4 * offs.length :=
    encTable_length offs
  have hK : 1 ≤ offs.length := List.length_pos.mpr hne
  have hlen : (D ++ (offs.map putUint32LE).flatten ++ [s]).length =
      D.length + 4 * offs.length + 1 := by
    simp [hTlen]
    omega
  rw [hlen]
  have hpos : D.length + 4 * offs.length + 1 - 5 =
      D.length + 4 * (offs.length - 1) := by omega
  rw [hpos, blob_read D _ [s] _ (by omega),
    readUint32LE_encTable offs (offs.length - 1) (by omega), hlast,
    Nat.mod_eq_of_lt (by omega)]

theorem offs_last (P : FilterPolicy) (segsF : List (List Key)) :
    (buildOffsets P segsF ++ [(buildData P segsF).length]).getD
      ((buildOffsets P segsF ++
        [(buildData P segsF).length]).length - 1) 0 =
      (buildData P segsF).length := by
  have hl : (buildOffsets P segsF ++
      [(buildData P segsF).length]).length = segsF.length + 1 := by
    simp [buildOffsets_length]
  rw [hl]
  have ht := table_entry P segsF segsF.length (le_refl _)
  simpa [List.take_length] using ht

theorem runOps_good (P : FilterPolicy) :
    ∀ (ops : List FilterOp) (f f' : BlockFilterWriter)
      (segs : List (List Key)),
      GoodWriter P segs f → runOps P f ops = .ok f' →
      ∃ segs', GoodWriter P segs' f' := by
  intro ops
  induction ops with
  | nil =>
    intro f f' segs hg h
    simp only [runOps, Except.ok.injEq] at h
    subst h
    exact ⟨segs, hg⟩
  | cons op rest ih =>
    intro f f' segs hg h
    cases op with
    | add k => exact ih _ f' segs (addKey_good P segs f k hg) h
    | block off =>
      unfold runOps at h
      rw [bind_eq_ok] at h
      obtain ⟨f1, hfb, hrest⟩ := h
      rcases finishBlock_good P segs f f1 off hg hfb with
        ⟨_, hf1⟩ | ⟨_, hg1, _⟩
      · subst hf1
        exact ih _ f' segs hg hrest
      · exact ih _ f' _ hg1 hrest

/-- Claim C7: for every sequence of `addKey` / `finishBlock` calls
followed by a successful `finish`, the offset table embedded in the blob
is non-decreasing, a multiple of 4 bytes long, its sentinel (last entry)
equals the total segment-data length, and every adjacent non-sentinel
pair `(low, high)` satisfies `low ≤ high ≤ len(segments)`. -/
theorem C7_offset_table_invariants (P : FilterPolicy) (ops : List FilterOp)
    (f : BlockFilterWriter) (blob : List Nat)
    (hrun : runOps P newBlockFilterWriter ops = .ok f)
    (hfin : BlockFilterWriter.finish P f = .ok blob) :
    ∃ entries : List Nat,
      (blob.take (blob.length - 1)).drop
          (readUint32LE blob (blob.length - 5)) =
        (entries.map putUint32LE).flatten ∧
      ((entries.map putUint32LE).flatten).length % 4 = 0 ∧
      List.Chain' (fun a b => a ≤ b) entries ∧
      entries.getLast? = some (readUint32LE blob (blob.length - 5)) ∧
      readUint32LE blob (blob.length - 5) +
          ((entries.map putUint32LE).flatten).length + 1 = blob.length ∧
      (∀ t, t + 1 < entries.length →
        entries.getD t 0 ≤ entries.getD (t + 1) 0 ∧
          entries.getD (t + 1) 0 ≤
            readUint32LE blob (blob.length - 5)) := by
  obtain ⟨segs', hg'⟩ :=
    runOps_good P ops newBlockFilterWriter f [] ⟨rfl, rfl, rfl⟩ hrun
  obtain ⟨segsF, hcase, hblob, hsize⟩ := finish_good P segs' f blob hg' hfin
  have hsent : readUint32LE blob (blob.length - 5) =
      (buildData P segsF).length := by
    rw [hblob]
    exact blob_sentinel _ _ _ (by simp) (offs_last P segsF) hsize
  have hentlen : ((buildOffsets P segsF ++
      [(buildData P segsF).length]).map putUint32LE).flatten.length =
      4 * (segsF.length + 1) := by
    rw [encTable_length]
    simp [buildOffsets_length]
  refine ⟨buildOffsets P segsF ++ [(buildData P segsF).length],
    ?_, ?_, entries_chain P segsF, ?_, ?_, ?_⟩
  · rw [hsent, hblob]
    exact blob_table _ _ _
  · rw [hentlen]
    omega
  · rw [hsent]
    exact List.getLast?_concat _
  · rw [hsent, hblob]
    simp only [List.length_append, List.length_singleton, hentlen]
  · intro t ht
    have hel : (buildOffsets P segsF ++
        [(buildData P segsF).length]).length = segsF.length + 1 := by
      simp [buildOffsets_length]
    rw [hel] at ht
    rw [hsent, table_entry P segsF t (by omega),
      table_entry P segsF (t + 1) (by omega)]
    exact ⟨buildData_take_mono P segsF (by omega),
      buildData_take_le P segsF (t + 1)⟩

theorem C7_offset_table_invariants_witness :
    ∃ entries : List Nat,
      (([0, 0, 0, 0, 11] : List Nat).take
          (([0, 0, 0, 0, 11] : List Nat).length - 1)).drop
          (readUint32LE [0, 0, 0, 0, 11]
            (([0, 0, 0, 0, 11] : List Nat).length - 5)) =
        (entries.map putUint32LE).flatten ∧
      ((entries.map putUint32LE).flatten).length % 4 = 0 ∧
      List.Chain' (fun a b => a ≤ b) entries ∧
      entries.getLast? = some (readUint32LE [0, 0, 0, 0, 11]
        (([0, 0, 0, 0, 11] : List Nat).length - 5)) ∧
      readUint32LE [0, 0, 0, 0, 11]
          (([0, 0, 0, 0, 11] : List Nat).length - 5) +
          ((entries.map putUint32LE).flatten).length + 1 =
          ([0, 0, 0, 0, 11] : List Nat).length ∧
      (∀ t, t + 1 < entries.length →
        entries.getD t 0 ≤ entries.getD (t + 1) 0 ∧
          entries.getD (t + 1) 0 ≤ readUint32LE [0, 0, 0, 0, 11]
            (([0, 0, 0, 0, 11] : List Nat).length - 5)) :=
  C7_offset_table_invariants trivialPolicy [] newBlockFilterWriter
    [0, 0, 0, 0, 11] rfl rfl
